import Mathlib

/-!
A verification development for a small "compile to closures" language
implementation: a tree-shaped program representation is lowered, node by
node, into executable closures ("thunks") working over a flat mutable
frame of runtime values.  The definitions below embed the implementation
(`src/main.rs`): panics become `Except` errors, the mutable compilation
context is threaded explicitly, and the (possibly divergent) while loop
is driven by an explicit fuel parameter.
-/

namespace RastJitVm

/-- Static types of the language (`enum Type`). -/
inductive Ty
  | unit
  | bool
  | int
deriving DecidableEq, Repr

/-- Runtime values (`enum Value`); the integer payload is a host `i32`,
embedded as a mathematical integer reduced by `wrap32` wherever the host
arithmetic could overflow. -/
inductive Value
  | unit
  | bool (b : Bool)
  | int (n : Int)
deriving DecidableEq, Repr

/-- Two's-complement reduction of an integer into the `i32` range
`[-2^31, 2^31)`. -/
def wrap32 (n : Int) : Int :=
  (n + 2 ^ 31) % 2 ^ 32 - 2 ^ 31

/-- Host `i32` addition (wrapping). -/
def i32_add (a b : Int) : Int := wrap32 (a + b)

/-- Host `i32` subtraction (wrapping). -/
def i32_sub (a b : Int) : Int := wrap32 (a - b)

/-- The static type of a runtime value (the match inside the `Const`
case of `compile_node`). -/
def Value.typeOf : Value → Ty
  | .unit => .unit
  | .bool _ => .bool
  | .int _ => .int

/-- Faults that can occur while evaluating a compiled thunk: an
out-of-bounds frame access, a payload-tag mismatch in `unwrap_bool` /
`unwrap_int` (runtime panics in the source), or fuel exhaustion (the
embedding's explicit counter for the unbounded `while`). -/
inductive RunError
  | outOfBounds
  | typeError
  | outOfFuel
deriving DecidableEq, Repr

/-- `Value::unwrap_bool` (panic becomes `.error .typeError`). -/
def Value.unwrap_bool : Value → Except RunError Bool
  | .bool b => .ok b
  | _ => .error .typeError

/-- `Value::unwrap_int` (panic becomes `.error .typeError`). -/
def Value.unwrap_int : Value → Except RunError Int
  | .int n => .ok n
  | _ => .error .typeError

/-- The syntax tree (`enum Node`). -/
inductive Node
  | Let (name : String) (value : Node)
  | Assign (name : String) (value : Node)
  | Const (value : Value)
  | Var (name : String)
  | Gt (lhs rhs : Node)
  | Add (lhs rhs : Node)
  | Sub (lhs rhs : Node)
  | While (cond body : Node)
  | Block (nodes : List Node)
deriving Repr

mutual

/-- Does `Var x` occur anywhere inside the node?  (Used to state that a
`Let`'s initializer cannot see its own declaration.) -/
def mentionsVar (x : String) : Node → Bool
  | .Let _ value => mentionsVar x value
  | .Assign _ value => mentionsVar x value
  | .Const _ => false
  | .Var name => decide (name = x)
  | .Gt lhs rhs | .Add lhs rhs | .Sub lhs rhs => mentionsVar x lhs || mentionsVar x rhs
  | .While cond body => mentionsVar x cond || mentionsVar x body
  | .Block nodes => mentionsList x nodes

/-- Does `Var x` occur inside some node of the list? -/
def mentionsList (x : String) : List Node → Bool
  | [] => false
  | n :: ns => mentionsVar x n || mentionsList x ns

end

/-- A whole program (`struct Program`). -/
structure Program where
  input : Ty
  output : Ty
  body : Node
deriving Repr

/-- Compile-time state (`struct CompilationContext`): the frame layout
and the name table.  The hash map of the source is embedded as an
association list queried with `lookupVar`. -/
structure CompilationContext where
  stack : List Ty
  vars : List (String × Nat)
deriving DecidableEq, Repr

/-- `ctxt.vars.get(name)` of the source: the name table query.  (The
table never holds a name twice, so an association list searched from
the front is an exact model of the hash map.) -/
def lookupVar (vars : List (String × Nat)) (name : String) : Option Nat :=
  match vars with
  | [] => none
  | (k, v) :: rest => if name = k then some v else lookupVar rest name

/-- Run-time state (`struct RuntimeContext`): the flat frame. -/
structure RuntimeContext where
  stack : List Value
deriving DecidableEq, Repr

/-- Compile-time faults (panics of the source, made explicit). -/
inductive CompileError
  | varNotDefined (name : String)
  | varAlreadyDeclared (name : String)
  | unknownOp (op : String) (lhs rhs : Ty)
  | assertTypeMismatch (left right : Ty)
  | emptyBlock
  | stackSlotMissing (id : Nat)
deriving DecidableEq, Repr

/-- A compiled closure (`type Thunk`), with an explicit fuel argument
bounding the number of while-loop iterations it may perform. -/
def Thunk : Type :=
  Nat → RuntimeContext → Except RunError (RuntimeContext × Value)

/-- Read a frame slot (`ctxt.stack[id]` on the right-hand side; the
out-of-range panic becomes `.error .outOfBounds`). -/
def readSlot (ctxt : RuntimeContext) (id : Nat) : Except RunError Value :=
  match ctxt.stack[id]? with
  | some v => .ok v
  | none => .error .outOfBounds

/-- Write a frame slot (`ctxt.stack[id] = v`; the out-of-range panic
becomes `.error .outOfBounds`). -/
def writeSlot (ctxt : RuntimeContext) (id : Nat) (v : Value) : Except RunError RuntimeContext :=
  if id < ctxt.stack.length then .ok ⟨ctxt.stack.set id v⟩ else .error .outOfBounds

/-- The thunk produced for `Const`: ignore the frame, return the
captured literal. -/
def constThunk (v : Value) : Thunk :=
  fun _ ctxt => .ok (ctxt, v)

/-- The thunk produced for `Var`: read the captured slot. -/
def varThunk (id : Nat) : Thunk :=
  fun _ ctxt =>
    match readSlot ctxt id with
    | .ok v => .ok (ctxt, v)
    | .error e => .error e

/-- The thunk produced for `Let` and `Assign`: evaluate the value
thunk, store its result into the captured slot, return `Unit`. -/
def storeThunk (id : Nat) (value : Thunk) : Thunk :=
  fun fuel ctxt =>
    match value fuel ctxt with
    | .ok (ctxt, v) =>
      match writeSlot ctxt id v with
      | .ok ctxt => .ok (ctxt, Value.unit)
      | .error e => .error e
    | .error e => .error e

/-- The thunk produced for `Gt`/`Add`/`Sub`: evaluate the left operand,
unwrap its integer payload, then the right operand, then combine. -/
def binIntThunk (f : Int → Int → Value) (lhs rhs : Thunk) : Thunk :=
  fun fuel ctxt =>
    match lhs fuel ctxt with
    | .ok (ctxt, lv) =>
      match lv.unwrap_int with
      | .ok a =>
        match rhs fuel ctxt with
        | .ok (ctxt, rv) =>
          match rv.unwrap_int with
          | .ok b => .ok (ctxt, f a b)
          | .error e => .error e
        | .error e => .error e
      | .error e => .error e
    | .error e => .error e

/-- The combining function of the `Gt` thunk. -/
def gtOp (a b : Int) : Value := Value.bool (decide (a > b))

/-- The combining function of the `Add` thunk. -/
def addOp (a b : Int) : Value := Value.int (i32_add a b)

/-- The combining function of the `Sub` thunk. -/
def subOp (a b : Int) : Value := Value.int (i32_sub a b)

/-- The loop driven by the `While` thunk: evaluate the condition,
unwrap it as a boolean; while true, evaluate the body (discarding its
value) and repeat; return `Unit` once false.  Each iteration consumes
one unit of fuel; running out of fuel yields `.error .outOfFuel`. -/
def whileLoop (cond body : Thunk) : Nat → RuntimeContext → Except RunError (RuntimeContext × Value)
  | 0, _ => .error .outOfFuel
  | fuel + 1, ctxt =>
    match cond fuel ctxt with
    | .ok (ctxt, v) =>
      match v.unwrap_bool with
      | .ok true =>
        match body fuel ctxt with
        | .ok (ctxt, _) => whileLoop cond body fuel ctxt
        | .error e => .error e
      | .ok false => .ok (ctxt, Value.unit)
      | .error e => .error e
    | .error e => .error e

/-- The thunk produced for `While`. -/
def whileThunk (cond body : Thunk) : Thunk :=
  fun fuel ctxt => whileLoop cond body fuel ctxt

/-- Sequential evaluation of the nested thunks of a `Block`: run each
thunk in order on the threaded frame, keeping only the last value
(starting from `Unit`, as in the source's loop). -/
def runSeq : List Thunk → Nat → RuntimeContext → Value → Except RunError (RuntimeContext × Value)
  | [], _, ctxt, v => .ok (ctxt, v)
  | t :: ts, fuel, ctxt, _ =>
    match t fuel ctxt with
    | .ok (ctxt, v) => runSeq ts fuel ctxt v
    | .error e => .error e

/-- The thunk produced for `Block`. -/
def blockThunk (ts : List Thunk) : Thunk :=
  fun fuel ctxt => runSeq ts fuel ctxt Value.unit

mutual

/-- The lowering pass (`fn compile_node`): maps a node to its static
type and executable thunk, threading the compilation context. -/
def compile_node : CompilationContext → Node → Except CompileError (CompilationContext × Ty × Thunk)
  | ctxt, .Let name value =>
    match compile_node ctxt value with
    | .error e => .error e
    | .ok (ctxt, ty, value) =>
      match lookupVar ctxt.vars name with
      | some _ => .error (.varAlreadyDeclared name)
      | none =>
        .ok (⟨ctxt.stack ++ [ty], (name, ctxt.stack.length) :: ctxt.vars⟩, .unit,
          storeThunk ctxt.stack.length value)
  | ctxt, .Assign name value =>
    match lookupVar ctxt.vars name with
    | none => .error (.varNotDefined name)
    | some id =>
      match compile_node ctxt value with
      | .error e => .error e
      | .ok (ctxt, ty, value) =>
        match ctxt.stack[id]? with
        | none => .error (.stackSlotMissing id)
        | some slotTy =>
          if ty = slotTy then .ok (ctxt, .unit, storeThunk id value)
          else .error (.assertTypeMismatch ty slotTy)
  | ctxt, .Const value => .ok (ctxt, value.typeOf, constThunk value)
  | ctxt, .Var name =>
    match lookupVar ctxt.vars name with
    | none => .error (.varNotDefined name)
    | some id =>
      match ctxt.stack[id]? with
      | none => .error (.stackSlotMissing id)
      | some ty => .ok (ctxt, ty, varThunk id)
  | ctxt, .Gt lhs rhs =>
    match compile_node ctxt lhs with
    | .error e => .error e
    | .ok (ctxt, lhs_ty, lhs) =>
      match compile_node ctxt rhs with
      | .error e => .error e
      | .ok (ctxt, rhs_ty, rhs) =>
        match lhs_ty, rhs_ty with
        | .int, .int => .ok (ctxt, .bool, binIntThunk gtOp lhs rhs)
        | lhs_ty, rhs_ty => .error (.unknownOp ">" lhs_ty rhs_ty)
  | ctxt, .Add lhs rhs =>
    match compile_node ctxt lhs with
    | .error e => .error e
    | .ok (ctxt, lhs_ty, lhs) =>
      match compile_node ctxt rhs with
      | .error e => .error e
      | .ok (ctxt, rhs_ty, rhs) =>
        match lhs_ty, rhs_ty with
        | .int, .int => .ok (ctxt, .int, binIntThunk addOp lhs rhs)
        | lhs_ty, rhs_ty => .error (.unknownOp "+" lhs_ty rhs_ty)
  | ctxt, .Sub lhs rhs =>
    match compile_node ctxt lhs with
    | .error e => .error e
    | .ok (ctxt, lhs_ty, lhs) =>
      match compile_node ctxt rhs with
      | .error e => .error e
      | .ok (ctxt, rhs_ty, rhs) =>
        match lhs_ty, rhs_ty with
        | .int, .int => .ok (ctxt, .int, binIntThunk subOp lhs rhs)
        | lhs_ty, rhs_ty => .error (.unknownOp "-" lhs_ty rhs_ty)
  | ctxt, .While cond body =>
    match compile_node ctxt cond with
    | .error e => .error e
    | .ok (ctxt, cond_ty, cond) =>
      match compile_node ctxt body with
      | .error e => .error e
      | .ok (ctxt, _, body) =>
        if cond_ty = .bool then .ok (ctxt, .unit, whileThunk cond body)
        else .error (.assertTypeMismatch .bool cond_ty)
  | ctxt, .Block nodes =>
    match compile_nodes ctxt nodes with
    | .error e => .error e
    | .ok (ctxt, pairs) =>
      match (pairs.map Prod.fst).getLast? with
      | none => .error .emptyBlock
      | some ty => .ok (ctxt, ty, blockThunk (pairs.map Prod.snd))

/-- Lowering of the node list of a `Block`, in order, against the same
accumulating context (the `map`/`unzip` of the source). -/
def compile_nodes : CompilationContext → List Node → Except CompileError (CompilationContext × List (Ty × Thunk))
  | ctxt, [] => .ok (ctxt, [])
  | ctxt, n :: ns =>
    match compile_node ctxt n with
    | .error e => .error e
    | .ok (ctxt, ty, t) =>
      match compile_nodes ctxt ns with
      | .error e => .error e
      | .ok (ctxt, rest) => .ok (ctxt, (ty, t) :: rest)

end

/-- The result of a successful compilation: the captured frame-layout
length and the top-level thunk (the data captured by the closure the
driver returns). -/
structure Compiled where
  stack_len : Nat
  thunk : Thunk

/-- The driver (`fn compile`): seed the context with the input slot,
lower the body, check the output type and the two host-type tags, and
capture the frame length.  `input_ty` and `output_ty` are the type tags
of the host scalar types instantiating the generic parameters. -/
def compile (input_ty output_ty : Ty) (prog : Program) : Except CompileError Compiled :=
  match compile_node ⟨[prog.input], [("input", 0)]⟩ prog.body with
  | .error e => .error e
  | .ok (ctxt, ty, thunk) =>
    if ty = prog.output then
      if input_ty = prog.input then
        if output_ty = prog.output then .ok ⟨ctxt.stack.length, thunk⟩
        else .error (.assertTypeMismatch output_ty prog.output)
      else .error (.assertTypeMismatch input_ty prog.input)
    else .error (.assertTypeMismatch ty prog.output)

/-- One invocation of the returned callable: allocate a fresh frame of
the captured length filled with `Unit`, write the (already converted)
input into slot 0, and evaluate the top-level thunk. -/
def invoke (c : Compiled) (fuel : Nat) (input : Value) : Except RunError Value :=
  match writeSlot ⟨List.replicate c.stack_len Value.unit⟩ 0 input with
  | .error e => .error e
  | .ok ctxt =>
    match c.thunk fuel ctxt with
    | .ok (_, v) => .ok v
    | .error e => .error e

/-- An invocation at host type `i32` for both ends: convert the input
with `into_value`, the output with `from_value` (an `unwrap_int`). -/
def call_i32 (c : Compiled) (fuel : Nat) (input : Int) : Except RunError Int :=
  match invoke c fuel (Value.int input) with
  | .ok v => v.unwrap_int
  | .error e => .error e

/-- The Fibonacci example program built in `main`. -/
def fib_program : Program :=
  ⟨.int, .int, .Block [
    .Let "x" (.Const (.int 0)),
    .Let "y" (.Const (.int 1)),
    .Let "z" (.Const (.int 1)),
    .Let "n" (.Var "input"),
    .While (.Gt (.Var "n") (.Const (.int 0)))
      (.Block [
        .Assign "x" (.Var "y"),
        .Assign "y" (.Var "z"),
        .Assign "z" (.Add (.Var "x") (.Var "y")),
        .Assign "n" (.Sub (.Var "n") (.Const (.int 1)))]),
    .Var "x"]⟩

/-- The result of compiling the Fibonacci example (a concrete compiled
callable used to exercise the driver-level theorems). -/
def fib_compiled : Compiled :=
  match compile .int .int fib_program with
  | .ok c => c
  | .error _ => ⟨0, constThunk Value.unit⟩

/-- Compile-context well-formedness: every slot the name table points
at exists in the frame layout. -/
def CtxtWf (c : CompilationContext) : Prop :=
  ∀ x i, lookupVar c.vars x = some i → i < c.stack.length

/-- All frame accesses of a thunk stay below `n`: on a frame of length
at least `n` the thunk never takes the out-of-range branch of frame
indexing, and a successful run preserves the frame length. -/
def ThunkBounded (n : Nat) (t : Thunk) : Prop :=
  ∀ fuel s, n ≤ s.stack.length →
    t fuel s ≠ .error .outOfBounds ∧
    ∀ s' v, t fuel s = .ok (s', v) → s'.stack.length = s.stack.length

/-- The fuel parameter is an artifact of the embedding: two runs of the
thunk on the same frame that both finish (neither runs out of fuel)
agree exactly. -/
def ThunkFuelDet (t : Thunk) : Prop :=
  ∀ f1 f2 s, t f1 s ≠ .error .outOfFuel → t f2 s ≠ .error .outOfFuel →
    t f1 s = t f2 s

/-- How the compilation context evolves across one lowering step:
established name-table entries survive unchanged, and the frame layout
only grows. -/
def CtxtStep (c c' : CompilationContext) : Prop :=
  (∀ x i, lookupVar c.vars x = some i → lookupVar c'.vars x = some i) ∧
  c.stack.length ≤ c'.stack.length

theorem ThunkBounded.mono {n m : Nat} {t : Thunk} (hnm : n ≤ m) (h : ThunkBounded n t) :
    ThunkBounded m t :=
  fun fuel s hs => h fuel s (le_trans hnm hs)

theorem unwrap_int_no_oob (v : Value) : v.unwrap_int ≠ .error .outOfBounds := by
  cases v <;> simp [Value.unwrap_int]

theorem unwrap_int_no_fuel (v : Value) : v.unwrap_int ≠ .error .outOfFuel := by
  cases v <;> simp [Value.unwrap_int]

theorem unwrap_bool_no_oob (v : Value) : v.unwrap_bool ≠ .error .outOfBounds := by
  cases v <;> simp [Value.unwrap_bool]

theorem unwrap_bool_no_fuel (v : Value) : v.unwrap_bool ≠ .error .outOfFuel := by
  cases v <;> simp [Value.unwrap_bool]

theorem constThunk_bounded (n : Nat) (v : Value) : ThunkBounded n (constThunk v) := by
  intro fuel s hs
  constructor
  · simp [constThunk]
  · intro s' v' h
    simp only [constThunk, Except.ok.injEq, Prod.mk.injEq] at h
    obtain ⟨rfl, rfl⟩ := h
    rfl

theorem constThunk_fuelDet (v : Value) : ThunkFuelDet (constThunk v) :=
  fun _ _ _ _ _ => rfl

theorem varThunk_bounded (n id : Nat) (hid : id < n) : ThunkBounded n (varThunk id) := by
  intro fuel s hs
  have hlt : id < s.stack.length := by omega
  have hget : s.stack[id]? = some s.stack[id] := List.getElem?_eq_getElem hlt
  constructor
  · simp [varThunk, readSlot, hget]
  · intro s' v' h
    simp only [varThunk, readSlot, hget, Except.ok.injEq, Prod.mk.injEq] at h
    obtain ⟨rfl, rfl⟩ := h
    rfl

theorem varThunk_fuelDet (id : Nat) : ThunkFuelDet (varThunk id) :=
  fun _ _ _ _ _ => rfl

theorem storeThunk_bounded (n id : Nat) (t : Thunk) (hid : id < n) (ht : ThunkBounded n t) :
    ThunkBounded n (storeThunk id t) := by
  intro fuel s hs
  obtain ⟨hoob, hlen⟩ := ht fuel s hs
  cases hres : t fuel s with
  | error e =>
    rw [hres] at hoob
    constructor
    · simpa [storeThunk, hres] using hoob
    · intro s' v h
      simp [storeThunk, hres] at h
  | ok p =>
    obtain ⟨s1, v1⟩ := p
    have hs1 : s1.stack.length = s.stack.length := hlen s1 v1 hres
    have hlt : id < s1.stack.length := by omega
    have hwrite : writeSlot s1 id v1 = .ok ⟨s1.stack.set id v1⟩ := by
      simp [writeSlot, hlt]
    constructor
    · simp [storeThunk, hres, hwrite]
    · intro s' v h
      simp only [storeThunk, hres, hwrite, Except.ok.injEq, Prod.mk.injEq] at h
      obtain ⟨rfl, rfl⟩ := h
      simp [List.length_set, hs1]

theorem storeThunk_fuelDet (id : Nat) (t : Thunk) (ht : ThunkFuelDet t) :
    ThunkFuelDet (storeThunk id t) := by
  intro f1 f2 s h1 h2
  have ht1 : t f1 s ≠ .error .outOfFuel := fun hc => h1 (by simp [storeThunk, hc])
  have ht2 : t f2 s ≠ .error .outOfFuel := fun hc => h2 (by simp [storeThunk, hc])
  have heq := ht f1 f2 s ht1 ht2
  simp only [storeThunk]
  rw [heq]

theorem binIntThunk_bounded (n : Nat) (f : Int → Int → Value) (l r : Thunk)
    (hl : ThunkBounded n l) (hr : ThunkBounded n r) :
    ThunkBounded n (binIntThunk f l r) := by
  intro fuel s hs
  obtain ⟨hoobl, hlenl⟩ := hl fuel s hs
  cases hres : l fuel s with
  | error e =>
    rw [hres] at hoobl
    constructor
    · simpa [binIntThunk, hres] using hoobl
    · intro s' v h
      simp [binIntThunk, hres] at h
  | ok p =>
    obtain ⟨s1, v1⟩ := p
    have hs1 : s1.stack.length = s.stack.length := hlenl s1 v1 hres
    cases hv1 : v1.unwrap_int with
    | error e =>
      have := unwrap_int_no_oob v1
      rw [hv1] at this
      constructor
      · simpa [binIntThunk, hres, hv1] using this
      · intro s' v h
        simp [binIntThunk, hres, hv1] at h
    | ok a =>
      obtain ⟨hoobr, hlenr⟩ := hr fuel s1 (by omega)
      cases hres2 : r fuel s1 with
      | error e =>
        rw [hres2] at hoobr
        constructor
        · simpa [binIntThunk, hres, hv1, hres2] using hoobr
        · intro s' v h
          simp [binIntThunk, hres, hv1, hres2] at h
      | ok q =>
        obtain ⟨s2, v2⟩ := q
        have hs2 : s2.stack.length = s1.stack.length := hlenr s2 v2 hres2
        cases hv2 : v2.unwrap_int with
        | error e =>
          have := unwrap_int_no_oob v2
          rw [hv2] at this
          constructor
          · simpa [binIntThunk, hres, hv1, hres2, hv2] using this
          · intro s' v h
            simp [binIntThunk, hres, hv1, hres2, hv2] at h
        | ok b =>
          constructor
          · simp [binIntThunk, hres, hv1, hres2, hv2]
          · intro s' v h
            simp only [binIntThunk, hres, hv1, hres2, hv2, Except.ok.injEq,
              Prod.mk.injEq] at h
            obtain ⟨rfl, rfl⟩ := h
            omega

theorem binIntThunk_fuelDet (f : Int → Int → Value) (l r : Thunk)
    (hl : ThunkFuelDet l) (hr : ThunkFuelDet r) :
    ThunkFuelDet (binIntThunk f l r) := by
  intro f1 f2 s h1 h2
  have hl1 : l f1 s ≠ .error .outOfFuel := fun hc => h1 (by simp [binIntThunk, hc])
  have hl2 : l f2 s ≠ .error .outOfFuel := fun hc => h2 (by simp [binIntThunk, hc])
  have hleq := hl f1 f2 s hl1 hl2
  cases hres : l f1 s with
  | error e =>
    have hres2 : l f2 s = .error e := by rw [← hleq, hres]
    simp only [binIntThunk, hres, hres2]
  | ok p =>
    obtain ⟨s1, v1⟩ := p
    have hres2 : l f2 s = .ok (s1, v1) := by rw [← hleq, hres]
    cases hv1 : v1.unwrap_int with
    | error e =>
      simp only [binIntThunk, hres, hres2, hv1]
    | ok a =>
      have hr1 : r f1 s1 ≠ .error .outOfFuel := fun hc =>
        h1 (by simp [binIntThunk, hres, hv1, hc])
      have hr2 : r f2 s1 ≠ .error .outOfFuel := fun hc =>
        h2 (by simp [binIntThunk, hres2, hv1, hc])
      have hreq := hr f1 f2 s1 hr1 hr2
      simp only [binIntThunk, hres, hres2, hv1, hreq]

theorem whileLoop_bounded (n : Nat) (cond body : Thunk)
    (hc : ThunkBounded n cond) (hb : ThunkBounded n body) :
    ∀ fuel s, n ≤ s.stack.length →
      whileLoop cond body fuel s ≠ .error .outOfBounds ∧
      ∀ s' v, whileLoop cond body fuel s = .ok (s', v) →
        s'.stack.length = s.stack.length := by
  intro fuel
  induction fuel with
  | zero =>
    intro s hs
    constructor
    · simp [whileLoop]
    · intro s' v h; simp [whileLoop] at h
  | succ fuel ih =>
    intro s hs
    obtain ⟨hcoob, hclen⟩ := hc fuel s hs
    cases hres : cond fuel s with
    | error e =>
      rw [hres] at hcoob
      constructor
      · simpa [whileLoop, hres] using hcoob
      · intro s' v h; simp [whileLoop, hres] at h
    | ok p =>
      obtain ⟨s1, v1⟩ := p
      have hs1 : s1.stack.length = s.stack.length := hclen s1 v1 hres
      cases hv1 : v1.unwrap_bool with
      | error e =>
        have hnoob := unwrap_bool_no_oob v1
        rw [hv1] at hnoob
        constructor
        · simpa [whileLoop, hres, hv1] using hnoob
        · intro s' v h; simp [whileLoop, hres, hv1] at h
      | ok bv =>
        cases bv with
        | false =>
          constructor
          · simp [whileLoop, hres, hv1]
          · intro s' v h
            simp only [whileLoop, hres, hv1, Except.ok.injEq, Prod.mk.injEq] at h
            obtain ⟨rfl, rfl⟩ := h
            omega
        | true =>
          obtain ⟨hboob, hblen⟩ := hb fuel s1 (by omega)
          cases hres2 : body fuel s1 with
          | error e =>
            rw [hres2] at hboob
            constructor
            · simpa [whileLoop, hres, hv1, hres2] using hboob
            · intro s' v h; simp [whileLoop, hres, hv1, hres2] at h
          | ok q =>
            obtain ⟨s2, v2⟩ := q
            have hs2 : s2.stack.length = s1.stack.length := hblen s2 v2 hres2
            obtain ⟨hloob, hllen⟩ := ih s2 (by omega)
            constructor
            · simpa [whileLoop, hres, hv1, hres2] using hloob
            · intro s' v h
              simp only [whileLoop, hres, hv1, hres2] at h
              have := hllen s' v h
              omega

theorem whileLoop_fuelDet (cond body : Thunk)
    (hc : ThunkFuelDet cond) (hb : ThunkFuelDet body) :
    ∀ f1 f2 s, whileLoop cond body f1 s ≠ .error .outOfFuel →
      whileLoop cond body f2 s ≠ .error .outOfFuel →
      whileLoop cond body f1 s = whileLoop cond body f2 s := by
  intro f1
  induction f1 with
  | zero => intro f2 s h1 h2; exact absurd rfl h1
  | succ f1 ih =>
    intro f2 s h1 h2
    cases f2 with
    | zero => exact absurd rfl h2
    | succ f2 =>
      have hc1 : cond f1 s ≠ .error .outOfFuel := fun hx => h1 (by simp [whileLoop, hx])
      have hc2 : cond f2 s ≠ .error .outOfFuel := fun hx => h2 (by simp [whileLoop, hx])
      have hceq := hc f1 f2 s hc1 hc2
      cases hres : cond f1 s with
      | error e =>
        have hres2 : cond f2 s = .error e := by rw [← hceq, hres]
        simp only [whileLoop, hres, hres2]
      | ok p =>
        obtain ⟨s1, v1⟩ := p
        have hres2 : cond f2 s = .ok (s1, v1) := by rw [← hceq, hres]
        cases hv1 : v1.unwrap_bool with
        | error e => simp only [whileLoop, hres, hres2, hv1]
        | ok bv =>
          cases bv with
          | false => simp only [whileLoop, hres, hres2, hv1]
          | true =>
            have hb1 : body f1 s1 ≠ .error .outOfFuel := fun hx =>
              h1 (by simp [whileLoop, hres, hv1, hx])
            have hb2 : body f2 s1 ≠ .error .outOfFuel := fun hx =>
              h2 (by simp [whileLoop, hres2, hv1, hx])
            have hbeq := hb f1 f2 s1 hb1 hb2
            cases hres3 : body f1 s1 with
            | error e =>
              have hres4 : body f2 s1 = .error e := by rw [← hbeq, hres3]
              simp only [whileLoop, hres, hres2, hv1, hres3, hres4]
            | ok q =>
              obtain ⟨s2, v2⟩ := q
              have hres4 : body f2 s1 = .ok (s2, v2) := by rw [← hbeq, hres3]
              have hl1 : whileLoop cond body f1 s2 ≠ .error .outOfFuel := fun hx =>
                h1 (by simp [whileLoop, hres, hv1, hres3, hx])
              have hl2 : whileLoop cond body f2 s2 ≠ .error .outOfFuel := fun hx =>
                h2 (by simp [whileLoop, hres2, hv1, hres4, hx])
              have hleq := ih f2 s2 hl1 hl2
              simp only [whileLoop, hres, hres2, hv1, hres3, hres4, hleq]

theorem whileThunk_bounded (n : Nat) (cond body : Thunk)
    (hc : ThunkBounded n cond) (hb : ThunkBounded n body) :
    ThunkBounded n (whileThunk cond body) := by
  intro fuel s hs
  exact whileLoop_bounded n cond body hc hb fuel s hs

theorem whileThunk_fuelDet (cond body : Thunk)
    (hc : ThunkFuelDet cond) (hb : ThunkFuelDet body) :
    ThunkFuelDet (whileThunk cond body) := by
  intro f1 f2 s h1 h2
  exact whileLoop_fuelDet cond body hc hb f1 f2 s h1 h2

theorem runSeq_bounded (n : Nat) :
    ∀ (ts : List Thunk), (∀ t ∈ ts, ThunkBounded n t) →
      ∀ fuel s v, n ≤ s.stack.length →
        runSeq ts fuel s v ≠ .error .outOfBounds ∧
        ∀ s' v', runSeq ts fuel s v = .ok (s', v') → s'.stack.length = s.stack.length := by
  intro ts
  induction ts with
  | nil =>
    intro _ fuel s v hs
    constructor
    · simp [runSeq]
    · intro s' v' h
      simp only [runSeq, Except.ok.injEq, Prod.mk.injEq] at h
      obtain ⟨rfl, rfl⟩ := h
      rfl
  | cons t ts ih =>
    intro hts fuel s v hs
    have ht : ThunkBounded n t := hts t (List.mem_cons_self t ts)
    have hts' : ∀ u ∈ ts, ThunkBounded n u := fun u hu => hts u (List.mem_cons_of_mem t hu)
    obtain ⟨hoob, hlen⟩ := ht fuel s hs
    cases hres : t fuel s with
    | error e =>
      rw [hres] at hoob
      constructor
      · simpa [runSeq, hres] using hoob
      · intro s' v' h; simp [runSeq, hres] at h
    | ok p =>
      obtain ⟨s1, v1⟩ := p
      have hs1 : s1.stack.length = s.stack.length := hlen s1 v1 hres
      obtain ⟨hoob2, hlen2⟩ := ih hts' fuel s1 v1 (by omega)
      constructor
      · simpa [runSeq, hres] using hoob2
      · intro s' v' h
        simp only [runSeq, hres] at h
        have := hlen2 s' v' h
        omega

theorem runSeq_fuelDet :
    ∀ (ts : List Thunk), (∀ t ∈ ts, ThunkFuelDet t) →
      ∀ f1 f2 s v, runSeq ts f1 s v ≠ .error .outOfFuel →
        runSeq ts f2 s v ≠ .error .outOfFuel →
        runSeq ts f1 s v = runSeq ts f2 s v := by
  intro ts
  induction ts with
  | nil => intro _ f1 f2 s v _ _; rfl
  | cons t ts ih =>
    intro hts f1 f2 s v h1 h2
    have ht : ThunkFuelDet t := hts t (List.mem_cons_self t ts)
    have hts' : ∀ u ∈ ts, ThunkFuelDet u := fun u hu => hts u (List.mem_cons_of_mem t hu)
    have ht1 : t f1 s ≠ .error .outOfFuel := fun hx => h1 (by simp [runSeq, hx])
    have ht2 : t f2 s ≠ .error .outOfFuel := fun hx => h2 (by simp [runSeq, hx])
    have hteq := ht f1 f2 s ht1 ht2
    cases hres : t f1 s with
    | error e =>
      have hres2 : t f2 s = .error e := by rw [← hteq, hres]
      simp only [runSeq, hres, hres2]
    | ok p =>
      obtain ⟨s1, v1⟩ := p
      have hres2 : t f2 s = .ok (s1, v1) := by rw [← hteq, hres]
      have hr1 : runSeq ts f1 s1 v1 ≠ .error .outOfFuel := fun hx =>
        h1 (by simp [runSeq, hres, hx])
      have hr2 : runSeq ts f2 s1 v1 ≠ .error .outOfFuel := fun hx =>
        h2 (by simp [runSeq, hres2, hx])
      have hreq := ih hts' f1 f2 s1 v1 hr1 hr2
      simp only [runSeq, hres, hres2, hreq]

theorem blockThunk_bounded (n : Nat) (ts : List Thunk)
    (hts : ∀ t ∈ ts, ThunkBounded n t) : ThunkBounded n (blockThunk ts) := by
  intro fuel s hs
  exact runSeq_bounded n ts hts fuel s Value.unit hs

theorem blockThunk_fuelDet (ts : List Thunk)
    (hts : ∀ t ∈ ts, ThunkFuelDet t) : ThunkFuelDet (blockThunk ts) := by
  intro f1 f2 s h1 h2
  exact runSeq_fuelDet ts hts f1 f2 s Value.unit h1 h2

mutual

theorem compile_node_sound : ∀ (n : Node) (c c' : CompilationContext) (ty : Ty) (t : Thunk),
    compile_node c n = .ok (c', ty, t) →
    CtxtStep c c' ∧
    (∀ x, mentionsVar x n = true → ∃ i, lookupVar c'.vars x = some i) ∧
    (CtxtWf c → CtxtWf c' ∧ ThunkBounded c'.stack.length t) ∧
    ThunkFuelDet t
  | .Let name value, c, c', ty, t, h => by
    rw [compile_node] at h
    split at h
    · exact absurd h (by simp)
    · rename_i c1 ty1 t1 hval
      split at h
      · exact absurd h (by simp)
      · rename_i hlk
        simp only [Except.ok.injEq, Prod.mk.injEq] at h
        obtain ⟨rfl, rfl, rfl⟩ := h
        obtain ⟨hstep, hmen, hwfb, hdet⟩ := compile_node_sound value c c1 ty1 t1 hval
        refine ⟨⟨?_, ?_⟩, ?_, ?_, ?_⟩
        · intro x i hx
          have hx1 := hstep.1 x i hx
          have hxname : x ≠ name := by
            intro hxe
            rw [hxe, hlk] at hx1
            exact Option.noConfusion hx1
          simpa [lookupVar, hxname] using hx1
        · have := hstep.2
          simp only [List.length_append, List.length_cons, List.length_nil]
          omega
        · intro x hx
          rw [mentionsVar] at hx
          obtain ⟨i, hi⟩ := hmen x hx
          by_cases hxe : x = name
          · exact ⟨c1.stack.length, by simp [lookupVar, hxe]⟩
          · exact ⟨i, by simpa [lookupVar, hxe] using hi⟩
        · intro hwf
          obtain ⟨hwf1, hbound⟩ := hwfb hwf
          constructor
          · intro x i hx
            simp only [lookupVar] at hx
            by_cases hxe : x = name
            · rw [if_pos hxe] at hx
              injection hx with hx
              simp only [List.length_append, List.length_cons, List.length_nil]
              omega
            · rw [if_neg hxe] at hx
              have := hwf1 x i hx
              simp only [List.length_append, List.length_cons, List.length_nil]
              omega
          · show ThunkBounded (c1.stack ++ [ty1]).length (storeThunk c1.stack.length t1)
            have hlen2 : (c1.stack ++ [ty1]).length = c1.stack.length + 1 := by simp
            rw [hlen2]
            exact storeThunk_bounded _ _ _ (Nat.lt_succ_self _)
              (hbound.mono (Nat.le_succ _))
        · exact storeThunk_fuelDet _ _ hdet
  | .Assign name value, c, c', ty, t, h => by
    rw [compile_node] at h
    split at h
    · exact absurd h (by simp)
    · rename_i id hlk
      split at h
      · exact absurd h (by simp)
      · rename_i c1 ty1 t1 hval
        split at h
        · exact absurd h (by simp)
        · rename_i slotTy hslot
          split at h
          · rename_i hty
            simp only [Except.ok.injEq, Prod.mk.injEq] at h
            obtain ⟨rfl, rfl, rfl⟩ := h
            obtain ⟨hstep, hmen, hwfb, hdet⟩ := compile_node_sound value c c1 ty1 t1 hval
            refine ⟨hstep, ?_, ?_, ?_⟩
            · intro x hx
              rw [mentionsVar] at hx
              exact hmen x hx
            · intro hwf
              obtain ⟨hwf1, hbound⟩ := hwfb hwf
              refine ⟨hwf1, storeThunk_bounded _ id t1 ?_ hbound⟩
              have h1 := hwf name id hlk
              have h2 := hstep.2
              omega
            · exact storeThunk_fuelDet _ _ hdet
          · exact absurd h (by simp)
  | .Const v, c, c', ty, t, h => by
    rw [compile_node] at h
    simp only [Except.ok.injEq, Prod.mk.injEq] at h
    obtain ⟨rfl, rfl, rfl⟩ := h
    refine ⟨⟨fun x i hx => hx, le_refl _⟩, ?_, ?_, constThunk_fuelDet v⟩
    · intro x hx
      rw [mentionsVar] at hx
      exact absurd hx (by simp)
    · intro hwf
      exact ⟨hwf, constThunk_bounded _ v⟩
  | .Var name, c, c', ty, t, h => by
    rw [compile_node] at h
    split at h
    · exact absurd h (by simp)
    · rename_i id hlk
      split at h
      · exact absurd h (by simp)
      · rename_i ty0 hslot
        simp only [Except.ok.injEq, Prod.mk.injEq] at h
        obtain ⟨rfl, rfl, rfl⟩ := h
        refine ⟨⟨fun x i hx => hx, le_refl _⟩, ?_, ?_, varThunk_fuelDet id⟩
        · intro x hx
          rw [mentionsVar] at hx
          have hnx : name = x := of_decide_eq_true hx
          subst hnx
          exact ⟨id, hlk⟩
        · intro hwf
          exact ⟨hwf, varThunk_bounded _ id (hwf name id hlk)⟩
  | .Gt lhs rhs, c, c', ty, t, h => by
    rw [compile_node] at h
    split at h
    · exact absurd h (by simp)
    · rename_i c1 ty1 t1 hl
      split at h
      · exact absurd h (by simp)
      · rename_i c2 ty2 t2 hr
        obtain ⟨hstep1, hmen1, hwfb1, hdet1⟩ := compile_node_sound lhs c c1 ty1 t1 hl
        obtain ⟨hstep2, hmen2, hwfb2, hdet2⟩ := compile_node_sound rhs c1 c2 ty2 t2 hr
        cases ty1 with
        | unit => exact absurd h (by simp)
        | bool => exact absurd h (by simp)
        | int =>
          cases ty2 with
          | unit => exact absurd h (by simp)
          | bool => exact absurd h (by simp)
          | int =>
            simp only [Except.ok.injEq, Prod.mk.injEq] at h
            obtain ⟨rfl, rfl, rfl⟩ := h
            refine ⟨⟨fun x i hx => hstep2.1 x i (hstep1.1 x i hx),
              le_trans hstep1.2 hstep2.2⟩, ?_, ?_, ?_⟩
            · intro x hx
              simp only [mentionsVar, Bool.or_eq_true] at hx
              rcases hx with h1 | h2
              · obtain ⟨i, hi⟩ := hmen1 x h1
                exact ⟨i, hstep2.1 x i hi⟩
              · exact hmen2 x h2
            · intro hwf
              obtain ⟨hwf1, hb1⟩ := hwfb1 hwf
              obtain ⟨hwf2, hb2⟩ := hwfb2 hwf1
              exact ⟨hwf2, binIntThunk_bounded _ _ _ _ (hb1.mono hstep2.2) hb2⟩
            · exact binIntThunk_fuelDet _ _ _ hdet1 hdet2
  | .Add lhs rhs, c, c', ty, t, h => by
    rw [compile_node] at h
    split at h
    · exact absurd h (by simp)
    · rename_i c1 ty1 t1 hl
      split at h
      · exact absurd h (by simp)
      · rename_i c2 ty2 t2 hr
        obtain ⟨hstep1, hmen1, hwfb1, hdet1⟩ := compile_node_sound lhs c c1 ty1 t1 hl
        obtain ⟨hstep2, hmen2, hwfb2, hdet2⟩ := compile_node_sound rhs c1 c2 ty2 t2 hr
        cases ty1 with
        | unit => exact absurd h (by simp)
        | bool => exact absurd h (by simp)
        | int =>
          cases ty2 with
          | unit => exact absurd h (by simp)
          | bool => exact absurd h (by simp)
          | int =>
            simp only [Except.ok.injEq, Prod.mk.injEq] at h
            obtain ⟨rfl, rfl, rfl⟩ := h
            refine ⟨⟨fun x i hx => hstep2.1 x i (hstep1.1 x i hx),
              le_trans hstep1.2 hstep2.2⟩, ?_, ?_, ?_⟩
            · intro x hx
              simp only [mentionsVar, Bool.or_eq_true] at hx
              rcases hx with h1 | h2
              · obtain ⟨i, hi⟩ := hmen1 x h1
                exact ⟨i, hstep2.1 x i hi⟩
              · exact hmen2 x h2
            · intro hwf
              obtain ⟨hwf1, hb1⟩ := hwfb1 hwf
              obtain ⟨hwf2, hb2⟩ := hwfb2 hwf1
              exact ⟨hwf2, binIntThunk_bounded _ _ _ _ (hb1.mono hstep2.2) hb2⟩
            · exact binIntThunk_fuelDet _ _ _ hdet1 hdet2
  | .Sub lhs rhs, c, c', ty, t, h => by
    rw [compile_node] at h
    split at h
    · exact absurd h (by simp)
    · rename_i c1 ty1 t1 hl
      split at h
      · exact absurd h (by simp)
      · rename_i c2 ty2 t2 hr
        obtain ⟨hstep1, hmen1, hwfb1, hdet1⟩ := compile_node_sound lhs c c1 ty1 t1 hl
        obtain ⟨hstep2, hmen2, hwfb2, hdet2⟩ := compile_node_sound rhs c1 c2 ty2 t2 hr
        cases ty1 with
        | unit => exact absurd h (by simp)
        | bool => exact absurd h (by simp)
        | int =>
          cases ty2 with
          | unit => exact absurd h (by simp)
          | bool => exact absurd h (by simp)
          | int =>
            simp only [Except.ok.injEq, Prod.mk.injEq] at h
            obtain ⟨rfl, rfl, rfl⟩ := h
            refine ⟨⟨fun x i hx => hstep2.1 x i (hstep1.1 x i hx),
              le_trans hstep1.2 hstep2.2⟩, ?_, ?_, ?_⟩
            · intro x hx
              simp only [mentionsVar, Bool.or_eq_true] at hx
              rcases hx with h1 | h2
              · obtain ⟨i, hi⟩ := hmen1 x h1
                exact ⟨i, hstep2.1 x i hi⟩
              · exact hmen2 x h2
            · intro hwf
              obtain ⟨hwf1, hb1⟩ := hwfb1 hwf
              obtain ⟨hwf2, hb2⟩ := hwfb2 hwf1
              exact ⟨hwf2, binIntThunk_bounded _ _ _ _ (hb1.mono hstep2.2) hb2⟩
            · exact binIntThunk_fuelDet _ _ _ hdet1 hdet2
  | .While cond body, c, c', ty, t, h => by
    rw [compile_node] at h
    split at h
    · exact absurd h (by simp)
    · rename_i c1 ty1 t1 hc
      split at h
      · exact absurd h (by simp)
      · rename_i c2 ty2 t2 hb
        split at h
        · rename_i hty
          simp only [Except.ok.injEq, Prod.mk.injEq] at h
          obtain ⟨rfl, rfl, rfl⟩ := h
          obtain ⟨hstep1, hmen1, hwfb1, hdet1⟩ := compile_node_sound cond c c1 ty1 t1 hc
          obtain ⟨hstep2, hmen2, hwfb2, hdet2⟩ := compile_node_sound body c1 c2 ty2 t2 hb
          refine ⟨⟨fun x i hx => hstep2.1 x i (hstep1.1 x i hx),
            le_trans hstep1.2 hstep2.2⟩, ?_, ?_, ?_⟩
          · intro x hx
            simp only [mentionsVar, Bool.or_eq_true] at hx
            rcases hx with h1 | h2
            · obtain ⟨i, hi⟩ := hmen1 x h1
              exact ⟨i, hstep2.1 x i hi⟩
            · exact hmen2 x h2
          · intro hwf
            obtain ⟨hwf1, hb1⟩ := hwfb1 hwf
            obtain ⟨hwf2, hb2⟩ := hwfb2 hwf1
            exact ⟨hwf2, whileThunk_bounded _ _ _ (hb1.mono hstep2.2) hb2⟩
          · exact whileThunk_fuelDet _ _ hdet1 hdet2
        · exact absurd h (by simp)
  | .Block nodes, c, c', ty, t, h => by
    rw [compile_node] at h
    split at h
    · exact absurd h (by simp)
    · rename_i c1 pairs hns
      split at h
      · exact absurd h (by simp)
      · rename_i ty0 hlast
        simp only [Except.ok.injEq, Prod.mk.injEq] at h
        obtain ⟨rfl, rfl, rfl⟩ := h
        obtain ⟨hstep, hmen, hwfb, hdet⟩ := compile_nodes_sound nodes c c1 pairs hns
        refine ⟨hstep, ?_, ?_, ?_⟩
        · intro x hx
          rw [mentionsVar] at hx
          exact hmen x hx
        · intro hwf
          obtain ⟨hwf1, hbs⟩ := hwfb hwf
          refine ⟨hwf1, blockThunk_bounded _ _ ?_⟩
          intro u hu
          obtain ⟨p, hp, rfl⟩ := List.mem_map.mp hu
          exact hbs p hp
        · apply blockThunk_fuelDet
          intro u hu
          obtain ⟨p, hp, rfl⟩ := List.mem_map.mp hu
          exact hdet p hp

theorem compile_nodes_sound :
    ∀ (ns : List Node) (c c' : CompilationContext) (ps : List (Ty × Thunk)),
    compile_nodes c ns = .ok (c', ps) →
    CtxtStep c c' ∧
    (∀ x, mentionsList x ns = true → ∃ i, lookupVar c'.vars x = some i) ∧
    (CtxtWf c → CtxtWf c' ∧ ∀ p ∈ ps, ThunkBounded c'.stack.length p.2) ∧
    (∀ p ∈ ps, ThunkFuelDet p.2)
  | [], c, c', ps, h => by
    rw [compile_nodes] at h
    simp only [Except.ok.injEq, Prod.mk.injEq] at h
    obtain ⟨rfl, rfl⟩ := h
    refine ⟨⟨fun x i hx => hx, le_refl _⟩, ?_, ?_, ?_⟩
    · intro x hx
      rw [mentionsList] at hx
      exact absurd hx (by simp)
    · intro hwf
      exact ⟨hwf, fun p hp => absurd hp (by simp)⟩
    · intro p hp
      exact absurd hp (by simp)
  | n :: ns, c, c', ps, h => by
    rw [compile_nodes] at h
    split at h
    · exact absurd h (by simp)
    · rename_i c1 ty1 t1 hn
      split at h
      · exact absurd h (by simp)
      · rename_i c2 rest hns
        simp only [Except.ok.injEq, Prod.mk.injEq] at h
        obtain ⟨rfl, rfl⟩ := h
        obtain ⟨hstep1, hmen1, hwfb1, hdet1⟩ := compile_node_sound n c c1 ty1 t1 hn
        obtain ⟨hstep2, hmen2, hwfb2, hdet2⟩ := compile_nodes_sound ns c1 c2 rest hns
        refine ⟨⟨fun x i hx => hstep2.1 x i (hstep1.1 x i hx),
          le_trans hstep1.2 hstep2.2⟩, ?_, ?_, ?_⟩
        · intro x hx
          simp only [mentionsList, Bool.or_eq_true] at hx
          rcases hx with h1 | h2
          · obtain ⟨i, hi⟩ := hmen1 x h1
            exact ⟨i, hstep2.1 x i hi⟩
          · exact hmen2 x h2
        · intro hwf
          obtain ⟨hwf1, hb1⟩ := hwfb1 hwf
          obtain ⟨hwf2, hbs⟩ := hwfb2 hwf1
          refine ⟨hwf2, ?_⟩
          intro p hp
          rcases List.mem_cons.mp hp with rfl | hp'
          · exact hb1.mono hstep2.2
          · exact hbs p hp'
        · intro p hp
          rcases List.mem_cons.mp hp with rfl | hp'
          · exact hdet1
          · exact hdet2 p hp'

end

theorem runSeq_singleton (t : Thunk) (fuel : Nat) (ctxt : RuntimeContext) (v : Value) :
    runSeq [t] fuel ctxt v = t fuel ctxt := by
  cases h : t fuel ctxt with
  | ok r => obtain ⟨c1, v1⟩ := r; simp [runSeq, h]
  | error e => simp [runSeq, h]

theorem runSeq_append (ts us : List Thunk) (fuel : Nat) (ctxt : RuntimeContext) (v : Value) :
    runSeq (ts ++ us) fuel ctxt v =
      match runSeq ts fuel ctxt v with
      | .ok (c1, v1) => runSeq us fuel c1 v1
      | .error e => .error e := by
  induction ts generalizing ctxt v with
  | nil => simp [runSeq]
  | cons t ts ih =>
    cases h : t fuel ctxt with
    | ok r => obtain ⟨c1, v1⟩ := r; simp [runSeq, h, ih]
    | error e => simp [runSeq, h]

theorem compile_nodes_append_ok (ns : List Node) :
    ∀ (ctxt c1 c2 : CompilationContext) (ps qs : List (Ty × Thunk)) (ms : List Node),
      compile_nodes ctxt ns = .ok (c1, ps) → compile_nodes c1 ms = .ok (c2, qs) →
      compile_nodes ctxt (ns ++ ms) = .ok (c2, ps ++ qs) := by
  induction ns with
  | nil =>
    intro ctxt c1 c2 ps qs ms h1 h2
    simp only [compile_nodes, Except.ok.injEq, Prod.mk.injEq] at h1
    obtain ⟨rfl, rfl⟩ := h1
    simpa using h2
  | cons n ns ih =>
    intro ctxt c1 c2 ps qs ms h1 h2
    rw [compile_nodes] at h1
    split at h1
    · exact absurd h1 (by simp)
    · rename_i c ty t h
      split at h1
      · exact absurd h1 (by simp)
      · rename_i c1' ps' h3
        simp only [Except.ok.injEq, Prod.mk.injEq] at h1
        obtain ⟨rfl, rfl⟩ := h1
        have hrec := ih c _ c2 ps' qs ms h3 h2
        simp [compile_nodes, h, hrec]

/-- C2: lowering a non-empty Block gives it the static type of its last
lowered node, and the compiled closure runs the nested closures in
order on the same threaded frame (so earlier side effects are seen by
later nodes), discards every intermediate result, and returns the value
of the last node. -/
theorem block_sequencing (ctxt c1 c2 : CompilationContext) (ns : List Node) (n : Node)
    (ps : List (Ty × Thunk)) (last_ty : Ty) (tlast : Thunk)
    (hns : compile_nodes ctxt ns = .ok (c1, ps))
    (hn : compile_node c1 n = .ok (c2, last_ty, tlast)) :
    compile_node ctxt (.Block (ns ++ [n])) =
      .ok (c2, last_ty, blockThunk (ps.map Prod.snd ++ [tlast])) ∧
    ∀ fuel s,
      blockThunk (ps.map Prod.snd ++ [tlast]) fuel s =
        match runSeq (ps.map Prod.snd) fuel s Value.unit with
        | .ok (s1, _) => tlast fuel s1
        | .error e => .error e := by
  constructor
  · have hsingle : compile_nodes c1 [n] = .ok (c2, [(last_ty, tlast)]) := by
      simp [compile_nodes, hn]
    have happ := compile_nodes_append_ok ns ctxt c1 c2 ps [(last_ty, tlast)] [n] hns hsingle
    simp only [compile_node, happ, List.map_append, List.map_cons, List.map_nil,
      List.getLast?_concat]
  · intro fuel s
    rw [blockThunk, runSeq_append]
    cases h : runSeq (ps.map Prod.snd) fuel s Value.unit with
    | ok r => obtain ⟨s1, v1⟩ := r; simp [runSeq_singleton]
    | error e => rfl

theorem block_sequencing_witness :
    compile_node ⟨[], []⟩ (.Block ([.Let "a" (.Const (.int 5))] ++ [.Var "a"])) =
      .ok (⟨[Ty.int], [("a", 0)]⟩, .int,
        blockThunk ([(Ty.unit, storeThunk 0 (constThunk (Value.int 5)))].map Prod.snd ++
          [varThunk 0])) :=
  (block_sequencing ⟨[], []⟩ ⟨[Ty.int], [("a", 0)]⟩ ⟨[Ty.int], [("a", 0)]⟩
    [.Let "a" (.Const (.int 5))] (.Var "a")
    [(Ty.unit, storeThunk 0 (constThunk (Value.int 5)))] .int (varThunk 0) rfl rfl).1

/-- C3: when both operands of `Gt`/`Add`/`Sub` lower to static type
Int, lowering succeeds -- `Gt` with type Bool, `Add`/`Sub` with type
Int -- and the compiled closure evaluates the left operand first, then
the right operand on the frame the left one produced, and combines the
unwrapped integer payloads with `>`, `+`, `-` (`i32` arithmetic). -/
theorem binop_int_int_lowering (ctxt c1 c2 : CompilationContext) (l r : Node) (tl tr : Thunk)
    (hl : compile_node ctxt l = .ok (c1, .int, tl))
    (hr : compile_node c1 r = .ok (c2, .int, tr)) :
    compile_node ctxt (.Gt l r) = .ok (c2, .bool, binIntThunk gtOp tl tr) ∧
    compile_node ctxt (.Add l r) = .ok (c2, .int, binIntThunk addOp tl tr) ∧
    compile_node ctxt (.Sub l r) = .ok (c2, .int, binIntThunk subOp tl tr) ∧
    ∀ fuel s s1 s2 a b,
      tl fuel s = .ok (s1, Value.int a) → tr fuel s1 = .ok (s2, Value.int b) →
      binIntThunk gtOp tl tr fuel s = .ok (s2, Value.bool (decide (a > b))) ∧
      binIntThunk addOp tl tr fuel s = .ok (s2, Value.int (i32_add a b)) ∧
      binIntThunk subOp tl tr fuel s = .ok (s2, Value.int (i32_sub a b)) := by
  refine ⟨?_, ?_, ?_, ?_⟩
  · simp [compile_node, hl, hr]
  · simp [compile_node, hl, hr]
  · simp [compile_node, hl, hr]
  · intro fuel s s1 s2 a b h1 h2
    refine ⟨?_, ?_, ?_⟩ <;> simp [binIntThunk, h1, h2, Value.unwrap_int, gtOp, addOp, subOp]

theorem binop_int_int_lowering_witness :
    compile_node ⟨[], []⟩ (.Gt (.Const (.int 1)) (.Const (.int 2))) =
      .ok (⟨[], []⟩, .bool, binIntThunk gtOp (constThunk (.int 1)) (constThunk (.int 2))) :=
  (binop_int_int_lowering ⟨[], []⟩ ⟨[], []⟩ ⟨[], []⟩ (.Const (.int 1)) (.Const (.int 2))
    (constThunk (.int 1)) (constThunk (.int 2)) rfl rfl).1

/-- C4: a binary operator whose operand types are any combination other
than (Int, Int) is rejected at lowering time with an
unsupported-operation error naming the operator and the two types; in
particular the program adding a Bool and an Int fails compilation
outright, so no closure of it can ever run. -/
theorem binop_unsupported_types_rejected (ctxt c1 c2 : CompilationContext) (l r : Node)
    (tyl tyr : Ty) (tl tr : Thunk)
    (hl : compile_node ctxt l = .ok (c1, tyl, tl))
    (hr : compile_node c1 r = .ok (c2, tyr, tr))
    (hne : ¬(tyl = .int ∧ tyr = .int)) :
    compile_node ctxt (.Gt l r) = .error (.unknownOp ">" tyl tyr) ∧
    compile_node ctxt (.Add l r) = .error (.unknownOp "+" tyl tyr) ∧
    compile_node ctxt (.Sub l r) = .error (.unknownOp "-" tyl tyr) ∧
    compile .int .int ⟨.int, .int, .Add (.Const (.bool true)) (.Const (.int 1))⟩ =
      .error (.unknownOp "+" .bool .int) := by
  refine ⟨?_, ?_, ?_, rfl⟩ <;>
    cases tyl <;> cases tyr <;> simp_all [compile_node]

theorem binop_unsupported_types_rejected_witness :
    compile_node ⟨[], []⟩ (.Add (.Const (.bool true)) (.Const (.int 1))) =
      .error (.unknownOp "+" .bool .int) :=
  (binop_unsupported_types_rejected ⟨[], []⟩ ⟨[], []⟩ ⟨[], []⟩
    (.Const (.bool true)) (.Const (.int 1)) .bool .int
    (constThunk (.bool true)) (constThunk (.int 1)) rfl rfl (by decide)).2.1

/-- C5 counterexample: for a While whose condition has static type Int
and whose body contains an undeclared variable, lowering fails with the
body's unresolved-name fault, not with the condition type-mismatch --
so the body is lowered before the condition type is checked, contrary
to the claim. -/
theorem while_nonbool_cond_counterexample :
    compile_node ⟨[Ty.int], [("input", 0)]⟩ (.While (.Const (.int 0)) (.Var "nope")) =
      .error (.varNotDefined "nope") ∧
    CompileError.varNotDefined "nope" ≠ .assertTypeMismatch .bool .int :=
  ⟨rfl, fun h => nomatch h⟩

/-- C5 (amended): when lowering a While node the condition is lowered
first, then the body is lowered, and only after both succeed is the
condition's static type checked against Bool; a fault raised while
lowering the body therefore surfaces before the condition
type-mismatch. -/
theorem while_lowers_body_before_cond_check (ctxt c1 : CompilationContext)
    (cond body : Node) (cond_ty : Ty) (tcond : Thunk)
    (hc : compile_node ctxt cond = .ok (c1, cond_ty, tcond)) :
    (∀ e, compile_node c1 body = .error e →
       compile_node ctxt (.While cond body) = .error e) ∧
    (∀ c2 body_ty tbody, compile_node c1 body = .ok (c2, body_ty, tbody) →
       cond_ty ≠ .bool →
       compile_node ctxt (.While cond body) = .error (.assertTypeMismatch .bool cond_ty)) ∧
    (∀ c2 body_ty tbody, compile_node c1 body = .ok (c2, body_ty, tbody) →
       cond_ty = .bool →
       compile_node ctxt (.While cond body) = .ok (c2, .unit, whileThunk tcond tbody)) := by
  refine ⟨?_, ?_, ?_⟩
  · intro e he; simp [compile_node, hc, he]
  · intro c2 bt tb hb hne; simp [compile_node, hc, hb, hne]
  · intro c2 bt tb hb heq; subst heq; simp [compile_node, hc, hb]

theorem while_lowers_body_before_cond_check_witness :
    compile_node ⟨[Ty.int], [("input", 0)]⟩ (.While (.Const (.int 1)) (.Var "missing")) =
      .error (.varNotDefined "missing") :=
  (while_lowers_body_before_cond_check ⟨[Ty.int], [("input", 0)]⟩ ⟨[Ty.int], [("input", 0)]⟩
    (.Const (.int 1)) (.Var "missing") .int (constThunk (.int 1)) rfl).1
    (.varNotDefined "missing") rfl

/-- C10: the integer payload is a host `i32`: the compiled `Add`/`Sub`
closures combine the unwrapped payloads with wrapping 32-bit signed
arithmetic, whose result always lies in `[-2^31, 2^31)` and agrees with
the exact result modulo `2^32`; at the boundary, `i32::MAX + 1` wraps
to `i32::MIN` and `i32::MIN - 1` wraps to `i32::MAX`. -/
theorem add_sub_are_wrapping_i32 :
    (∀ (ctxt : CompilationContext) (a b : Int),
       compile_node ctxt (.Add (.Const (.int a)) (.Const (.int b))) =
         .ok (ctxt, .int, binIntThunk addOp (constThunk (.int a)) (constThunk (.int b))) ∧
       compile_node ctxt (.Sub (.Const (.int a)) (.Const (.int b))) =
         .ok (ctxt, .int, binIntThunk subOp (constThunk (.int a)) (constThunk (.int b))) ∧
       ∀ fuel s,
         binIntThunk addOp (constThunk (.int a)) (constThunk (.int b)) fuel s =
           .ok (s, .int (wrap32 (a + b))) ∧
         binIntThunk subOp (constThunk (.int a)) (constThunk (.int b)) fuel s =
           .ok (s, .int (wrap32 (a - b)))) ∧
    (∀ n : Int, -2 ^ 31 ≤ wrap32 n ∧ wrap32 n < 2 ^ 31 ∧ (2 ^ 32 : Int) ∣ wrap32 n - n) ∧
    wrap32 (2147483647 + 1) = -2147483648 ∧
    wrap32 (-2147483648 - 1) = 2147483647 := by
  refine ⟨?_, ?_, by decide, by decide⟩
  · intro ctxt a b
    refine ⟨by simp [compile_node, Value.typeOf], by simp [compile_node, Value.typeOf], ?_⟩
    intro fuel s
    constructor <;>
      simp [binIntThunk, constThunk, Value.unwrap_int, addOp, subOp, i32_add, i32_sub]
  · intro n
    have h0 : (0 : Int) < 2 ^ 32 := by norm_num
    have h1 : 0 ≤ (n + 2 ^ 31) % 2 ^ 32 := Int.emod_nonneg _ (by norm_num)
    have h2 : (n + 2 ^ 31) % 2 ^ 32 < 2 ^ 32 := Int.emod_lt_of_pos _ h0
    refine ⟨?_, ?_, ⟨-((n + 2 ^ 31) / 2 ^ 32), ?_⟩⟩
    · simp only [wrap32]; omega
    · simp only [wrap32]; omega
    · simp only [wrap32, Int.emod_def]; ring

/-- C1: the Fibonacci example program compiles, and the compiled
callable maps input 0 to output 0, input 1 to output 1, and input 10 to
output 55. -/
theorem fib_example_outputs :
    (compile .int .int fib_program).map
      (fun c => (call_i32 c 100 0, call_i32 c 100 1, call_i32 c 100 10)) =
      .ok (.ok 0, .ok 1, .ok 55) := by
  rfl

theorem compile_ok_inversion (prog : Program) (tin tout : Ty) (c : Compiled)
    (h : compile tin tout prog = .ok c) :
    ∃ c1 : CompilationContext,
      compile_node ⟨[prog.input], [("input", 0)]⟩ prog.body = .ok (c1, prog.output, c.thunk) ∧
      tin = prog.input ∧ tout = prog.output ∧ c.stack_len = c1.stack.length := by
  rw [compile] at h
  split at h
  · exact absurd h (by simp)
  · rename_i c1 ty1 t1 hlow
    split at h
    · rename_i hty
      split at h
      · rename_i htin
        split at h
        · rename_i htout
          simp only [Except.ok.injEq] at h
          subst h
          rw [hty] at hlow
          exact ⟨c1, hlow, htin, htout, rfl⟩
        · exact absurd h (by simp)
      · exact absurd h (by simp)
    · exact absurd h (by simp)

theorem compile_ok_thunk_facts (prog : Program) (tin tout : Ty) (c : Compiled)
    (h : compile tin tout prog = .ok c) :
    1 ≤ c.stack_len ∧ ThunkBounded c.stack_len c.thunk ∧ ThunkFuelDet c.thunk := by
  obtain ⟨c1, hlow, _, _, hlen⟩ := compile_ok_inversion prog tin tout c h
  have hwf0 : CtxtWf ⟨[prog.input], [("input", 0)]⟩ := by
    intro x i hx
    simp only [lookupVar] at hx
    split at hx
    · simp only [Option.some.injEq] at hx
      simp only [List.length_cons, List.length_nil]
      omega
    · exact absurd hx (by simp)
  obtain ⟨hstep, _, hwfb, hdet⟩ :=
    compile_node_sound prog.body ⟨[prog.input], [("input", 0)]⟩ c1 prog.output c.thunk hlow
  obtain ⟨_, hbound⟩ := hwfb hwf0
  refine ⟨?_, ?_, hdet⟩
  · have := hstep.2
    rw [hlen]
    simpa using this
  · rw [hlen]
    exact hbound

theorem invoke_ne_oob (c : Compiled) (hb : ThunkBounded c.stack_len c.thunk)
    (h1 : 1 ≤ c.stack_len) (fuel : Nat) (input : Value) :
    invoke c fuel input ≠ .error .outOfBounds := by
  have h0 : 0 < (⟨List.replicate c.stack_len Value.unit⟩ : RuntimeContext).stack.length := by
    simp only [List.length_replicate]
    omega
  have hw : writeSlot ⟨List.replicate c.stack_len Value.unit⟩ 0 input =
      .ok ⟨(List.replicate c.stack_len Value.unit).set 0 input⟩ := by
    rw [writeSlot, if_pos h0]
  have hflen : c.stack_len ≤
      (⟨(List.replicate c.stack_len Value.unit).set 0 input⟩ : RuntimeContext).stack.length := by
    simp only [List.length_set, List.length_replicate]
    exact le_refl _
  obtain ⟨hoob, _⟩ := hb fuel ⟨(List.replicate c.stack_len Value.unit).set 0 input⟩ hflen
  cases hres : c.thunk fuel ⟨(List.replicate c.stack_len Value.unit).set 0 input⟩ with
  | ok p =>
    obtain ⟨s', v⟩ := p
    simp [invoke, hw, hres]
  | error e =>
    rw [hres] at hoob
    simpa [invoke, hw, hres] using hoob

theorem invoke_fuelDet (c : Compiled) (hdet : ThunkFuelDet c.thunk) (h1 : 1 ≤ c.stack_len)
    (f1 f2 : Nat) (input : Value)
    (hne1 : invoke c f1 input ≠ .error .outOfFuel)
    (hne2 : invoke c f2 input ≠ .error .outOfFuel) :
    invoke c f1 input = invoke c f2 input := by
  have h0 : 0 < (⟨List.replicate c.stack_len Value.unit⟩ : RuntimeContext).stack.length := by
    simp only [List.length_replicate]
    omega
  have hw : writeSlot ⟨List.replicate c.stack_len Value.unit⟩ 0 input =
      .ok ⟨(List.replicate c.stack_len Value.unit).set 0 input⟩ := by
    rw [writeSlot, if_pos h0]
  have ht1 : c.thunk f1 ⟨(List.replicate c.stack_len Value.unit).set 0 input⟩ ≠
      .error .outOfFuel := by
    intro hx
    exact hne1 (by simp [invoke, hw, hx])
  have ht2 : c.thunk f2 ⟨(List.replicate c.stack_len Value.unit).set 0 input⟩ ≠
      .error .outOfFuel := by
    intro hx
    exact hne2 (by simp [invoke, hw, hx])
  have heq := hdet f1 f2 ⟨(List.replicate c.stack_len Value.unit).set 0 input⟩ ht1 ht2
  simp only [invoke, hw, heq]

/-- C6 counterexample: a Let whose initializer itself declares the same
name: the precondition of the claim holds (the initializer contains a
reference to the declared name, which was not previously declared), yet
lowering fails with the duplicate-declaration error -- the reference
resolved against the inner declaration -- not with the unresolved-name
error the claim asserts. -/
theorem let_self_reference_counterexample :
    compile_node ⟨[Ty.int], [("input", 0)]⟩
      (.Let "x" (.Block [.Let "x" (.Const (.int 1)), .Var "x"])) =
      .error (.varAlreadyDeclared "x") ∧
    mentionsVar "x" (.Block [.Let "x" (.Const (.int 1)), .Var "x"]) = true ∧
    lookupVar [("input", 0)] "x" = none ∧
    CompileError.varAlreadyDeclared "x" ≠ .varNotDefined "x" :=
  ⟨rfl, rfl, rfl, fun h => nomatch h⟩

/-- C6 (amended): the initializer of a Let is lowered against the
context as it was before the new variable is registered, so the
declared name is never visible within its own initializer: when the
initializer is exactly `Var(name)` and the name was not previously
declared, lowering fails with the unresolved-name error; and whenever
the initializer merely contains `Var(name)` (undeclared before), the
Let can never lower successfully -- though the reported fault may be a
different error, e.g. duplicate-declaration when the initializer itself
declares the name. -/
theorem let_initializer_prior_scope :
    (∀ (ctxt : CompilationContext) (name : String),
       lookupVar ctxt.vars name = none →
       compile_node ctxt (.Let name (.Var name)) = .error (.varNotDefined name)) ∧
    (∀ (ctxt : CompilationContext) (name : String) (value : Node),
       lookupVar ctxt.vars name = none → mentionsVar name value = true →
       ∃ e, compile_node ctxt (.Let name value) = .error e) := by
  constructor
  · intro ctxt name hlk
    simp [compile_node, hlk]
  · intro ctxt name value hlk hmen
    cases hres : compile_node ctxt (.Let name value) with
    | error e => exact ⟨e, rfl⟩
    | ok r =>
      exfalso
      obtain ⟨c', ty, t⟩ := r
      rw [compile_node] at hres
      split at hres
      · exact absurd hres (by simp)
      · rename_i c1 ty1 t1 hval
        split at hres
        · exact absurd hres (by simp)
        · rename_i hlk1
          obtain ⟨_, hmen1, _, _⟩ := compile_node_sound value ctxt c1 ty1 t1 hval
          obtain ⟨i, hi⟩ := hmen1 name hmen
          rw [hlk1] at hi
          exact Option.noConfusion hi

theorem let_initializer_prior_scope_witness :
    compile_node ⟨[], []⟩ (.Let "w" (.Var "w")) = .error (.varNotDefined "w") :=
  let_initializer_prior_scope.1 ⟨[], []⟩ "w" rfl

/-- C7: the driver checks the host type tags against the program's
declared types, captures the final frame-layout length (at least one,
for the input slot); each invocation of the callable then allocates a
fresh frame of that length with every slot Unit, writes the converted
input into slot 0, evaluates the top-level closure on that frame, and
converts its result. -/
theorem compile_driver_per_call (prog : Program) (tin tout : Ty) (c : Compiled)
    (h : compile tin tout prog = .ok c) :
    tin = prog.input ∧ tout = prog.output ∧ 1 ≤ c.stack_len ∧
    (∃ c1 : CompilationContext,
       compile_node ⟨[prog.input], [("input", 0)]⟩ prog.body = .ok (c1, prog.output, c.thunk) ∧
       c.stack_len = c1.stack.length) ∧
    ∀ fuel input, ∃ frame : RuntimeContext,
      writeSlot ⟨List.replicate c.stack_len Value.unit⟩ 0 input = .ok frame ∧
      frame.stack.length = c.stack_len ∧
      frame.stack[0]? = some input ∧
      (∀ i, 0 < i → i < c.stack_len → frame.stack[i]? = some Value.unit) ∧
      invoke c fuel input =
        match c.thunk fuel frame with
        | .ok (_, v) => .ok v
        | .error e => .error e := by
  obtain ⟨c1, hlow, htin, htout, hlen⟩ := compile_ok_inversion prog tin tout c h
  obtain ⟨h1, _, _⟩ := compile_ok_thunk_facts prog tin tout c h
  refine ⟨htin, htout, h1, ⟨c1, hlow, hlen⟩, ?_⟩
  intro fuel input
  have h0 : 0 < (⟨List.replicate c.stack_len Value.unit⟩ : RuntimeContext).stack.length := by
    simp only [List.length_replicate]
    omega
  have hw : writeSlot ⟨List.replicate c.stack_len Value.unit⟩ 0 input =
      .ok ⟨(List.replicate c.stack_len Value.unit).set 0 input⟩ := by
    rw [writeSlot, if_pos h0]
  refine ⟨⟨(List.replicate c.stack_len Value.unit).set 0 input⟩, hw, ?_, ?_, ?_, ?_⟩
  · simp
  · rw [List.getElem?_set_eq_of_lt]
    simpa using h1
  · intro i hi0 hile
    rw [List.getElem?_set_ne (by omega)]
    simp [hile]
  · simp only [invoke, hw]

theorem compile_driver_per_call_witness :
    compile .int .int fib_program = .ok fib_compiled ∧
    1 ≤ fib_compiled.stack_len :=
  ⟨rfl, (compile_driver_per_call fib_program .int .int fib_compiled rfl).2.2.1⟩

/-- C8: the compiled callable is deterministic: for a successfully
compiled program, two invocations with the same input -- each on its
own fresh frame -- yield identical outputs, independently even of the
fuel bounds as long as neither run exhausts its fuel. -/
theorem compiled_deterministic (prog : Program) (tin tout : Ty) (c : Compiled)
    (h : compile tin tout prog = .ok c) (f1 f2 : Nat) (input : Value)
    (h1 : invoke c f1 input ≠ .error .outOfFuel)
    (h2 : invoke c f2 input ≠ .error .outOfFuel) :
    invoke c f1 input = invoke c f2 input := by
  obtain ⟨hlen, _, hdet⟩ := compile_ok_thunk_facts prog tin tout c h
  exact invoke_fuelDet c hdet hlen f1 f2 input h1 h2

theorem compiled_deterministic_witness :
    invoke fib_compiled 50 (Value.int 3) = invoke fib_compiled 100 (Value.int 3) :=
  compiled_deterministic fib_program .int .int fib_compiled rfl 50 100 (Value.int 3)
    (by simp [show invoke fib_compiled 50 (Value.int 3) = .ok (Value.int 2) from rfl])
    (by simp [show invoke fib_compiled 100 (Value.int 3) = .ok (Value.int 2) from rfl])

/-- C9: in-bounds frame access: for any successfully compiled program,
every frame read and write performed while evaluating the compiled
closures on the driver-allocated frame is within bounds -- no
invocation of the returned callable can ever produce the out-of-range
fault, on any input and any fuel bound. -/
theorem compiled_no_out_of_bounds (prog : Program) (tin tout : Ty) (c : Compiled)
    (h : compile tin tout prog = .ok c) (fuel : Nat) (input : Value) :
    invoke c fuel input ≠ .error .outOfBounds := by
  obtain ⟨h1, hb, _⟩ := compile_ok_thunk_facts prog tin tout c h
  exact invoke_ne_oob c hb h1 fuel input

theorem compiled_no_out_of_bounds_witness :
    invoke fib_compiled 100 (Value.int 10) ≠ .error .outOfBounds :=
  compiled_no_out_of_bounds fib_program .int .int fib_compiled rfl 100 (Value.int 10)

end RastJitVm
